import Mathlib

/-!
# sentimentalanalysis: a verification development of `main.go`

The program loads a two-column CSV file, cleans every text with an ordered list
of named filters, scores it with an external sentiment analyser, thresholds the
compound score into a binary label and feeds the (true, predicted) pairs to a
confusion matrix.

Embedding conventions.
* A Go `string` is a sequence of bytes: `GoString := List UInt8`.
* Go `int` values are mathematical integers (`Int`); the only place where the
  machine width matters is `strconv.Atoi`, whose model carries `intSize` and
  reduces its `uint64` accumulator modulo `2 ^ 64` explicitly.
* A `float64` is one of NaN, the two infinities, or a finite value given by the
  rational it denotes; comparisons follow IEEE 754 (anything against NaN is false).
* The collaborators that are not part of the repository (`strings.ToLower`,
  `godiacritics.Normalize`, `strings.TrimSpace`, the analyser's compound score)
  are parameters, collected in `Lib`.
* The call `mat.Observe` of the library `mlmetrics` follows section 4.5 of the
  specification: it records a pair of labels in {0, 1} and is out of contract for
  any other label.
* `strings.Replace` and `strconv.Atoi` are transcribed from the Go standard library.
-/

namespace Sentiment

/-! ## Strings -/

/-- A Go string: an immutable sequence of bytes. -/
abbrev GoString := List UInt8

/-- The bytes of an ASCII source literal. -/
def ascii (s : String) : GoString := s.toList.map (fun c => UInt8.ofNat c.toNat)

/-- The byte of the period. -/
def dot : UInt8 := 46

/-- The byte of the space. -/
def space : UInt8 := 32

/-- Go `strings.HasPrefix s p`: `s` starts with `p`. -/
def hasPrefix : GoString → GoString → Bool
  | _, [] => true
  | [], _ :: _ => false
  | c :: s, d :: p => c == d && hasPrefix s p

/-- Go `strings.Contains s sub`: `sub` occurs somewhere in `s`. -/
def contains (s sub : GoString) : Bool :=
  hasPrefix s sub ||
    match s with
    | [] => false
    | _ :: t => contains t sub

/-- Go `strings.Replace s old new 1`: the leftmost occurrence of `old` in `s` is
replaced by `new`; `s` is returned as it is when `old` does not occur. -/
def replaceFirst (s old new : GoString) : GoString :=
  if hasPrefix s old then new ++ s.drop old.length
  else
    match s with
    | [] => []
    | c :: t => c :: replaceFirst t old new

/-! ## `replace`, `toLower`, `normalize`, `sanitizer` -/

/-- The table `set` of `replace`, in source order. -/
def replaceSet : List GoString :=
  [ascii ".", ascii ";", ascii "...", ascii ":", ascii ",", ascii "\""]

/-- The loop `for _, st := range set { s = strings.Replace(s, st, " ", 1) }`. -/
def replaceLoop : List GoString → GoString → GoString
  | [], s => s
  | st :: rest, s => replaceLoop rest (replaceFirst s st (ascii " "))

/-- Source function `replace`. -/
def replace (s : GoString) : GoString := replaceLoop replaceSet s

/-- The functions the program takes from outside the repository. -/
structure Lib where
  /-- Go `strings.ToLower`. -/
  toLower : GoString → GoString
  /-- Library `godiacritics.Normalize`. -/
  normalize : GoString → GoString
  /-- Go `strings.TrimSpace`. -/
  trimSpace : GoString → GoString

/-- Source function `toLower`. -/
def toLower (L : Lib) (s : GoString) : GoString := L.toLower s

/-- Source function `normalize`. -/
def normalize (L : Lib) (s : GoString) : GoString := L.normalize s

/-- The `switch ft` of `sanitizer`: one filter name applied to the text. A name
that matches no case leaves the text as it is. -/
def applyFilter (L : Lib) (ft txt : GoString) : GoString :=
  if ft = ascii "lowercase" then toLower L txt
  else if ft = ascii "normalize" then normalize L txt
  else if ft = ascii "replace" then replace txt
  else txt

/-- The loop `for _, ft := range filters` of `sanitizer`. -/
def sanitizerLoop (L : Lib) : List GoString → GoString → GoString
  | [], txt => txt
  | ft :: rest, txt => sanitizerLoop L rest (applyFilter L ft txt)

/-- Source function `sanitizer`. -/
def sanitizer (L : Lib) (txt : GoString) (filters : List GoString) : GoString :=
  if filters.length = 0 then txt
  else sanitizerLoop L filters txt

/-- The filter names `sanitizer` has a case for. -/
def recognized (ft : GoString) : Bool :=
  ft = ascii "lowercase" || ft = ascii "normalize" || ft = ascii "replace"

/-- The per-name transform in the words of the specification: `lowercase` is
`toLower`, `normalize` is `normalize`, `replace` is `replace`, and any other name
is the identity. -/
def specTransform (L : Lib) (ft : GoString) : GoString → GoString :=
  if ft = ascii "lowercase" then L.toLower
  else if ft = ascii "normalize" then L.normalize
  else if ft = ascii "replace" then replace
  else id

/-! ## `float64` and the threshold -/

/-- A `float64` value, by what it denotes. -/
inductive F64 where
  | nan
  | negInf
  | posInf
  | finite (q : ℚ)

/-- IEEE 754 `a >= b`. -/
def F64.ge : F64 → F64 → Bool
  | .nan, _ => false
  | _, .nan => false
  | .posInf, _ => true
  | _, .negInf => true
  | .negInf, _ => false
  | _, .posInf => false
  | .finite a, .finite b => decide (b ≤ a)

/-- IEEE 754 `a <= b`. -/
def F64.le (a b : F64) : Bool := F64.ge b a

/-- The constant `0.05` as a `float64`: the double nearest to 1/20, which is
`0x3FA999999999999A = 3602879701896397 / 2 ^ 56`. -/
def c005 : F64 := .finite (3602879701896397 / 72057594037927936)

/-- The constant `-0.05` as a `float64`. -/
def cNeg005 : F64 := .finite (-(3602879701896397 / 72057594037927936))

/-- The thresholding of `main` (lines 139 to 144): `yPredValue` starts at the zero
value of `int` and is assigned in the two branches. -/
def predict (compound : F64) : Int :=
  let yPredValue : Int := 0
  if F64.ge compound c005 then 1
  else if F64.le compound cNeg005 then 0
  else yPredValue

/-! ## `strconv.Atoi` -/

/-- The two errors `strconv` reports: `ErrSyntax` and `ErrRange`. -/
inductive NumError where
  | syntaxErr
  | rangeErr
deriving DecidableEq

/-- The digit loop of the fast path of `Atoi`: `ch -= '0'` wraps around in a byte,
and `ch > 9` is a syntax error. -/
def atoiFastLoop : GoString → Int → Option Int
  | [], n => some n
  | c :: cs, n =>
    let ch := (c.toNat + 256 - 48) % 256
    if ch > 9 then none
    else atoiFastLoop cs (n * 10 + ch)

/-- The fast path of `Atoi`, taken for short strings: the value fits `int`. -/
def atoiFast (s0 : GoString) : Int × Option NumError :=
  let signed := s0.head? = some 45 ∨ s0.head? = some 43
  let s := if signed then s0.tail else s0
  if signed ∧ s.length < 1 then (0, some .syntaxErr)
  else
    match atoiFastLoop s 0 with
    | none => (0, some .syntaxErr)
    | some n => (if s0.head? = some 45 then -n else n, none)

/-- The function `lower` of `strconv`: `c | ('x' - 'X')`. -/
def lowerByte (c : UInt8) : Nat := c.toNat ||| 32

/-- The digit loop of `ParseUint` for base 10 (so `base0` is false and the
underscore case is never taken); `n` is a `uint64`. -/
def parseUintLoop (maxVal : Nat) : GoString → Nat → Nat × Option NumError
  | [], n => (n, none)
  | c :: cs, n =>
    let d? : Option Nat :=
      if 48 ≤ c.toNat ∧ c.toNat ≤ 57 then some (c.toNat - 48)
      else if 97 ≤ lowerByte c ∧ lowerByte c ≤ 122 then some (lowerByte c - 97 + 10)
      else none
    match d? with
    | none => (0, some .syntaxErr)
    | some d =>
      if d ≥ 10 then (0, some .syntaxErr)
      else if n ≥ (2 ^ 64 - 1) / 10 + 1 then (maxVal, some .rangeErr)
      else
        let n10 := (n * 10) % 2 ^ 64
        let n1 := (n10 + d) % 2 ^ 64
        if n1 < n10 ∨ n1 > maxVal then (maxVal, some .rangeErr)
        else parseUintLoop maxVal cs n1

/-- Go `strconv.ParseUint(s, 10, 0)`; `maxVal` is `uint64(1)<<bitSize - 1`. -/
def parseUint (intSize : Nat) (s : GoString) : Nat × Option NumError :=
  if s = [] then (0, some .syntaxErr)
  else parseUintLoop ((2 ^ intSize % 2 ^ 64 + 2 ^ 64 - 1) % 2 ^ 64) s 0

/-- Go `strconv.ParseInt(s, 10, 0)`. A syntax error returns 0; as its documentation
says, when the value cannot be represented by a signed integer of the given size
the error is `ErrRange` and the returned value is the maximum magnitude integer of
the appropriate size and sign. -/
def parseInt (intSize : Nat) (s0 : GoString) : Int × Option NumError :=
  if s0 = [] then (0, some .syntaxErr)
  else
    let neg : Bool := s0.head? = some 45
    let s := if s0.head? = some 43 ∨ s0.head? = some 45 then s0.tail else s0
    let r := parseUint intSize s
    if r.2 = some .syntaxErr then (0, some .syntaxErr)
    else
      let cutoff : Nat := 2 ^ (intSize - 1)
      if neg = false ∧ r.1 ≥ cutoff then ((cutoff : Int) - 1, some .rangeErr)
      else if neg = true ∧ r.1 > cutoff then (-(cutoff : Int), some .rangeErr)
      else (if neg then -(r.1 : Int) else (r.1 : Int), none)

/-- Go `strconv.Atoi` on a platform whose `int` has `intSize` bits (32 or 64):
the value and the error, `none` for `nil`. Short strings take the fast path, all
others `ParseInt(s, 10, 0)`, whose value is returned together with its error. -/
def atoi (intSize : Nat) (s : GoString) : Int × Option NumError :=
  if (intSize = 32 ∧ (0 < s.length ∧ s.length < 10)) ∨
      (intSize = 64 ∧ (0 < s.length ∧ s.length < 19)) then atoiFast s
  else parseInt intSize s

/-! ## Decimal numerals -/

/-- The byte of the decimal digit `d`. -/
def digitByte (d : Nat) : UInt8 := UInt8.ofNat (48 + d)

/-- The sign written in front of a decimal numeral. -/
inductive Sign where
  | bare
  | plus
  | minus
deriving DecidableEq

/-- The bytes of a sign: nothing, `+` or `-`. -/
def Sign.bytes : Sign → GoString
  | .bare => []
  | .plus => [43]
  | .minus => [45]

/-- The decimal numeral with sign `sg` and digits `ds`, most significant first. -/
def numeral (sg : Sign) (ds : List Nat) : GoString := sg.bytes ++ ds.map digitByte

/-- The natural number a sequence of decimal digits denotes. -/
def digitsValue (ds : List Nat) : Nat := ds.foldl (fun a d => a * 10 + d) 0

/-- The integer a decimal numeral denotes. -/
def numeralValue (sg : Sign) (ds : List Nat) : Int :=
  match sg with
  | .minus => -(digitsValue ds : Int)
  | _ => (digitsValue ds : Int)

/-- The numeral is well formed (at least one digit, every digit below ten) and the
integer it denotes fits an `int` of `intSize` bits. -/
def IsIntNumeral (intSize : Nat) (sg : Sign) (ds : List Nat) : Prop :=
  ds ≠ [] ∧ (∀ d ∈ ds, d < 10) ∧
    -(2 : Int) ^ (intSize - 1) ≤ numeralValue sg ds ∧ numeralValue sg ds < (2 : Int) ^ (intSize - 1)

/-! ## `getInfoFromFile` -/

/-- Source type `Info`. -/
structure Info where
  True : Int
  Text : GoString
deriving DecidableEq

/-- What one call of `csvReader.Read()` gives before the end of the stream: a
record or an error other than `io.EOF`. -/
inductive ReadResult where
  | record (rec : List GoString)
  | failure
deriving DecidableEq

/-- How `getInfoFromFile` ends. -/
inductive LoadOutcome where
  /-- The statement `return info, nil`. -/
  | ok (info : List Info)
  /-- The statement `return nil, err` after `os.Open` failed. -/
  | openError
  /-- The call `log.Fatal(err)`: the process exits. -/
  | fatal
  /-- A run-time panic: `rec[0]` or `rec[1]` is out of range. -/
  | indexPanic
deriving DecidableEq

/-- The `for` loop of `getInfoFromFile` over what the reader still holds; the end
of the list is `io.EOF`. -/
def readLoop (intSize : Nat) : List ReadResult → List Info → LoadOutcome
  | [], info => .ok info
  | .failure :: _, _ => .fatal
  | .record rec :: rest, info =>
    match rec[0]?, rec[1]? with
    | some c0, some c1 =>
      let value := (atoi intSize c0).1
      readLoop intSize rest (info ++ [Info.mk value c1])
    | _, _ => .indexPanic

/-- Source function `getInfoFromFile`; `opened` is what `os.Open` gives, `none`
for an error and otherwise the sequence of results the CSV reader will produce. -/
def getInfoFromFile (intSize : Nat) (opened : Option (List ReadResult)) : LoadOutcome :=
  match opened with
  | none => .openError
  | some stream => readLoop intSize stream []

/-! ## The loops of `main` -/

/-- The loop `for _, r := range results { yTrue = append(yTrue, r.True) }`. -/
def yTrueLoop : List Info → List Int → List Int
  | [], yTrue => yTrue
  | r :: rest, yTrue => yTrueLoop rest (yTrue ++ [r.True])

/-- The scoring loop of `main`; `getScore` gives the compound score of the
analyser for a text. -/
def yPredLoop (L : Lib) (getScore : GoString → F64) (currentFilters : List GoString) :
    List Info → List Int → List Int
  | [], yPred => yPred
  | txt :: rest, yPred =>
    let text := sanitizer L txt.Text currentFilters
    let score := getScore (L.trimSpace text)
    yPredLoop L getScore currentFilters rest (yPred ++ [predict score])

/-- The string handed to the scorer for one record. -/
def scorerInput (L : Lib) (currentFilters : List GoString) (txt : GoString) : GoString :=
  L.trimSpace (sanitizer L txt currentFilters)

/-- The state of the confusion matrix: the pairs recorded so far, in order. -/
abbrev Matrix := List (Int × Int)

/-- Modelled from the spec: `mat.Observe` of the library `mlmetrics`, which is not
part of the repository. Section 4.5 of the specification: it increments the count
of the cell (true, predicted), and labels outside {0, 1} are out of contract. The
model records the pair when both labels are 0 or 1 and gives `none`, the call
not returning normally, for any other label. -/
def observe (mat : Matrix) (t p : Int) : Option Matrix :=
  if (t = 0 ∨ t = 1) ∧ (p = 0 ∨ p = 1) then some (mat ++ [(t, p)]) else none

/-- How the observation loop of `main` can stop before its end. -/
inductive Crash where
  /-- The index `yTrue[i]` or `yPred[i]` is out of range. -/
  | indexOutOfRange
  /-- The call `mat.Observe` does not return normally. -/
  | observeFailed
deriving DecidableEq

/-- One iteration of the observation loop: `mat.Observe(yTrue[i], yPred[i])`. -/
def observeStep (yTrue yPred : List Int) (mat : Matrix) (i : Nat) : Except Crash Matrix :=
  match yTrue[i]?, yPred[i]? with
  | some t, some p =>
    match observe mat t p with
    | some m => .ok m
    | none => .error .observeFailed
  | _, _ => .error .indexOutOfRange

/-- The loop `for i := range yTrue { mat.Observe(yTrue[i], yPred[i]) }`, started on
the empty matrix. -/
def observeLoop (yTrue yPred : List Int) : Except Crash Matrix :=
  (List.range yTrue.length).foldlM (observeStep yTrue yPred) []

/-- What `main` computes from the loaded records (lines 125 to 152). -/
structure Scored where
  yTrue : List Int
  yPred : List Int
  observed : Except Crash Matrix

/-- Lines 125 to 152 of `main`. -/
def mainScore (L : Lib) (getScore : GoString → F64) (currentFilters : List GoString)
    (results : List Info) : Scored :=
  let yTrue := yTrueLoop results []
  let yPred := yPredLoop L getScore currentFilters results []
  Scored.mk yTrue yPred (observeLoop yTrue yPred)


/-! ## Predicates used in the proofs -/

/-- The facts a same-length replacement keeps: a space at `i`, a period at `j`,
one period in all, and the length. -/
def TwoMarks (i j n : Nat) (t : GoString) : Prop :=
  t[i]? = some space ∧ t[j]? = some dot ∧ t.count dot = 1 ∧ t.length = n

/-! ## Lemmas on `replaceFirst` -/

theorem replaceFirst_single_cons (a b c : UInt8) (t : GoString) :
    replaceFirst (c :: t) [a] [b] =
      if c = a then b :: t else c :: replaceFirst t [a] [b] := by
  by_cases h : c = a
  · subst h
    simp [replaceFirst, hasPrefix]
  · have hp : hasPrefix (c :: t) [a] = false := by
      cases t <;> simp [hasPrefix, h]
    rw [replaceFirst, hp]
    simp [h]

theorem replaceFirst_single_nil (a b : UInt8) : replaceFirst [] [a] [b] = [] := by
  simp [replaceFirst, hasPrefix]

theorem replaceFirst_single_length (a b : UInt8) (s : GoString) :
    (replaceFirst s [a] [b]).length = s.length := by
  induction s with
  | nil => simp [replaceFirst_single_nil]
  | cons c t ih =>
    rw [replaceFirst_single_cons]
    split <;> simp [ih]

theorem replaceFirst_single_getElem? (a b x : UInt8) (hx : x ≠ a) (s : GoString) (k : Nat)
    (h : s[k]? = some x) : (replaceFirst s [a] [b])[k]? = some x := by
  induction s generalizing k with
  | nil => simp at h
  | cons c t ih =>
    rw [replaceFirst_single_cons]
    cases k with
    | zero =>
      simp at h
      subst h
      simp [hx]
    | succ k =>
      simp at h
      split
      · simpa using h
      · simpa using ih k h

theorem replaceFirst_single_count (a b x : UInt8) (ha : x ≠ a) (hb : x ≠ b) (s : GoString) :
    (replaceFirst s [a] [b]).count x = s.count x := by
  induction s with
  | nil => simp [replaceFirst_single_nil]
  | cons c t ih =>
    rw [replaceFirst_single_cons]
    split
    · rename_i h
      subst h
      simp [List.count_cons, Ne.symm ha, Ne.symm hb]
    · simp [List.count_cons, ih]

theorem replaceFirst_first (a b : UInt8) (p t : GoString) (hp : a ∉ p) :
    replaceFirst (p ++ a :: t) [a] [b] = p ++ b :: t := by
  induction p with
  | nil => simp [replaceFirst_single_cons]
  | cons c p ih =>
    simp at hp
    have hc : c ≠ a := fun h => hp.1 h.symm
    simp [replaceFirst_single_cons, hc]
    exact ih hp.2

theorem replaceFirst_absent (a b : UInt8) (s : GoString) (hp : a ∉ s) :
    replaceFirst s [a] [b] = s := by
  induction s with
  | nil => simp [replaceFirst_single_nil]
  | cons c p ih =>
    simp at hp
    have hc : c ≠ a := fun h => hp.1 h.symm
    simp [replaceFirst_single_cons, hc]
    exact ih hp.2


theorem hasPrefix_length (s p : GoString) (h : hasPrefix s p = true) : p.length ≤ s.length := by
  induction p generalizing s with
  | nil => simp
  | cons d p ih =>
    cases s with
    | nil => simp [hasPrefix] at h
    | cons c s =>
      simp [hasPrefix] at h
      have := ih s h.2
      simp
      omega

theorem replaceFirst_not_contains (s old new : GoString) (h : contains s old = false) :
    replaceFirst s old new = s := by
  induction s with
  | nil =>
    rw [contains] at h
    simp at h
    rw [replaceFirst]
    simp [h]
  | cons c t ih =>
    rw [contains] at h
    simp at h
    rw [replaceFirst]
    simp [h.1, ih h.2]

theorem replaceFirst_contains_length (s old new : GoString) (h : contains s old = true) :
    (replaceFirst s old new).length + old.length = s.length + new.length := by
  induction s with
  | nil =>
    rw [contains] at h
    simp at h
    have hl := hasPrefix_length _ _ h
    rw [replaceFirst]
    simp [h]
    simpa using hl
  | cons c t ih =>
    rw [replaceFirst]
    by_cases hp : hasPrefix (c :: t) old = true
    · have hl := hasPrefix_length _ _ hp
      simp [hp]
      simp at hl
      omega
    · rw [contains] at h
      simp [hp] at h
      simp [hp]
      have := ih h
      omega

theorem hasPrefix_replaceFirst_single (a b : UInt8) (pat : GoString)
    (ha : a ∉ pat) (hb : b ∉ pat) (s : GoString) :
    hasPrefix (replaceFirst s [a] [b]) pat = hasPrefix s pat := by
  induction pat generalizing s with
  | nil => cases s <;> simp [hasPrefix]
  | cons x pat ih =>
    simp at ha hb
    cases s with
    | nil => simp [replaceFirst_single_nil]
    | cons c t =>
      rw [replaceFirst_single_cons]
      split
      · rename_i h
        subst h
        have h1 : (b == x) = false := by simpa using hb.1
        have h2 : (c == x) = false := by simpa using ha.1
        simp [hasPrefix, h1, h2]
      · simp [hasPrefix, ih ha.2 hb.2]

theorem contains_cons (c : UInt8) (t sub : GoString) :
    contains (c :: t) sub = (hasPrefix (c :: t) sub || contains t sub) := by
  rw [contains]

theorem contains_replaceFirst_single (a b : UInt8) (pat : GoString)
    (ha : a ∉ pat) (hb : b ∉ pat) (s : GoString) :
    contains (replaceFirst s [a] [b]) pat = contains s pat := by
  induction s with
  | nil => simp [replaceFirst_single_nil]
  | cons c t ih =>
    have hpre := hasPrefix_replaceFirst_single a b pat ha hb (c :: t)
    by_cases h : c = a
    · rw [replaceFirst_single_cons, if_pos h] at hpre ⊢
      rw [contains_cons, contains_cons, hpre]
    · rw [replaceFirst_single_cons, if_neg h] at hpre ⊢
      rw [contains_cons, contains_cons, hpre, ih]

theorem count_of_hasPrefix_dots (s : GoString) (h : hasPrefix s [dot, dot, dot] = true) :
    3 ≤ s.count dot := by
  match s, h with
  | c1 :: c2 :: c3 :: t, h =>
    simp [hasPrefix] at h
    obtain ⟨h1, h2, h3⟩ := h
    subst h1 h2 h3
    simp [List.count_cons]
  | [], h => simp [hasPrefix] at h
  | [_], h => simp [hasPrefix] at h
  | [_, _], h => simp [hasPrefix] at h

theorem count_of_contains_dots (s : GoString) (h : contains s [dot, dot, dot] = true) :
    3 ≤ s.count dot := by
  induction s with
  | nil => rw [contains] at h; simp [hasPrefix] at h
  | cons c t ih =>
    rw [contains] at h
    simp only [Bool.or_eq_true] at h
    rcases h with h | h
    · exact count_of_hasPrefix_dots _ h
    · have := ih h
      simp [List.count_cons]
      omega


theorem replace_unfold (s : GoString) :
    replace s =
      replaceFirst (replaceFirst (replaceFirst (replaceFirst (replaceFirst
        (replaceFirst s [dot] [space]) [59] [space]) [dot, dot, dot] [space])
        [58] [space]) [44] [space]) [34] [space] := rfl

theorem replaceFirst_dots_of_count (s : GoString) (h : s.count dot < 3) :
    replaceFirst s [dot, dot, dot] [space] = s := by
  apply replaceFirst_not_contains
  cases hc : contains s [dot, dot, dot] with
  | false => rfl
  | true =>
    have := count_of_contains_dots s hc
    omega

theorem twoMarks_single (i j n : Nat) (t : GoString) (a : UInt8)
    (ha : a ≠ dot) (hs : a ≠ space) (h : TwoMarks i j n t) :
    TwoMarks i j n (replaceFirst t [a] [space]) := by
  obtain ⟨h1, h2, h3, h4⟩ := h
  refine ⟨?_, ?_, ?_, ?_⟩
  · exact replaceFirst_single_getElem? a space space (Ne.symm hs) t i h1
  · exact replaceFirst_single_getElem? a space dot (Ne.symm ha) t j h2
  · rw [replaceFirst_single_count a space dot (Ne.symm ha) (by decide)]
    exact h3
  · rw [replaceFirst_single_length]
    exact h4

theorem twoMarks_dots (i j n : Nat) (t : GoString) (h : TwoMarks i j n t) :
    TwoMarks i j n (replaceFirst t [dot, dot, dot] [space]) := by
  rw [replaceFirst_dots_of_count t (by rw [h.2.2.1]; decide)]
  exact h

theorem replace_twoMarks (p q r : GoString) (hp : dot ∉ p) (hq : dot ∉ q) (hr : dot ∉ r) :
    TwoMarks p.length (p.length + 1 + q.length) (p.length + 1 + q.length + 1 + r.length)
      (replace (p ++ dot :: (q ++ dot :: r))) := by
  rw [replace_unfold, replaceFirst_first dot space p _ hp]
  apply twoMarks_single _ _ _ _ _ (by decide) (by decide)
  apply twoMarks_single _ _ _ _ _ (by decide) (by decide)
  apply twoMarks_single _ _ _ _ _ (by decide) (by decide)
  apply twoMarks_dots
  apply twoMarks_single _ _ _ _ _ (by decide) (by decide)
  refine ⟨?_, ?_, ?_, ?_⟩
  · rw [List.getElem?_append_right (Nat.le_refl _)]
    simp
  · rw [List.getElem?_append_right (by omega)]
    have : p.length + 1 + q.length - p.length = (q.length + 0) + 1 := by omega
    rw [this, List.getElem?_cons_succ, List.getElem?_append_right (by omega)]
    simp
  · have h1 : List.count dot p = 0 := List.count_eq_zero.mpr hp
    have h2 : List.count dot q = 0 := List.count_eq_zero.mpr hq
    have h3 : List.count dot r = 0 := List.count_eq_zero.mpr hr
    have hne : (space == dot) = false := by decide
    simp [List.count_cons, List.count_append, h1, h2, h3, hne]
  · simp
    omega

theorem split_at_index (s : GoString) (i : Nat) (x : UInt8) (h : s[i]? = some x) :
    ∃ p t, s = p ++ x :: t ∧ p.length = i := by
  induction s generalizing i with
  | nil => simp at h
  | cons c s ih =>
    cases i with
    | zero =>
      simp at h
      exact ⟨[], s, by simp [h], rfl⟩
    | succ i =>
      simp at h
      obtain ⟨p, t, hs, hl⟩ := ih i h
      exact ⟨c :: p, t, by simp [hs], by simp [hl]⟩

theorem two_periods_split (s : GoString) (i j : Nat) (hij : i < j)
    (hi : s[i]? = some dot) (hj : s[j]? = some dot) (hc : s.count dot = 2) :
    ∃ p q r, s = p ++ dot :: (q ++ dot :: r) ∧ p.length = i ∧ p.length + 1 + q.length = j ∧
      dot ∉ p ∧ dot ∉ q ∧ dot ∉ r := by
  obtain ⟨p, t, hs, hl⟩ := split_at_index s i dot hi
  subst hs
  have hj2 : t[j - i - 1]? = some dot := by
    rw [List.getElem?_append_right (by omega)] at hj
    have : j - p.length = (j - i - 1) + 1 := by omega
    rw [this, List.getElem?_cons_succ] at hj
    exact hj
  obtain ⟨q, r, ht, hq⟩ := split_at_index t (j - i - 1) dot hj2
  subst ht
  simp [List.count_cons, List.count_append] at hc
  have h1 : List.count dot p = 0 := by omega
  have h2 : List.count dot q = 0 := by omega
  have h3 : List.count dot r = 0 := by omega
  refine ⟨p, q, r, rfl, hl, by omega, ?_, ?_, ?_⟩
  · exact List.count_eq_zero.mp h1
  · exact List.count_eq_zero.mp h2
  · exact List.count_eq_zero.mp h3


/-! ## The length of `replace` -/

theorem length_replace_cases (s : GoString) :
    (replace s).length =
      if contains (replaceFirst s [dot] [space]) [dot, dot, dot] = true then s.length - 2
      else s.length := by
  rw [replace_unfold]
  simp only [replaceFirst_single_length]
  have hc : contains (replaceFirst (replaceFirst s [dot] [space]) [59] [space]) [dot, dot, dot]
      = contains (replaceFirst s [dot] [space]) [dot, dot, dot] :=
    contains_replaceFirst_single 59 space [dot, dot, dot] (by decide) (by decide) _
  have hl : (replaceFirst (replaceFirst s [dot] [space]) [59] [space]).length = s.length := by
    simp only [replaceFirst_single_length]
  by_cases h : contains (replaceFirst s [dot] [space]) [dot, dot, dot] = true
  · rw [if_pos h]
    have := replaceFirst_contains_length _ _ [space] (hc.trans h)
    simp only [List.length_cons, List.length_nil] at this
    omega
  · rw [if_neg h]
    have h2 : contains (replaceFirst (replaceFirst s [dot] [space]) [59] [space])
        [dot, dot, dot] = false := by
      rw [hc]
      simpa using h
    rw [replaceFirst_not_contains _ _ _ h2, hl]

theorem contains_dots_length (s : GoString) (h : contains s [dot, dot, dot] = true) :
    3 ≤ s.length := by
  have h1 := count_of_contains_dots s h
  have h2 := List.count_le_length dot s
  omega

/-! ## `sanitizer` -/

theorem sanitizer_eq_loop (L : Lib) (t : GoString) (fs : List GoString) :
    sanitizer L t fs = sanitizerLoop L fs t := by
  cases fs with
  | nil => simp [sanitizer, sanitizerLoop]
  | cons f fs => simp [sanitizer]

theorem sanitizerLoop_append (L : Lib) (fs gs : List GoString) (t : GoString) :
    sanitizerLoop L (fs ++ gs) t = sanitizerLoop L gs (sanitizerLoop L fs t) := by
  induction fs generalizing t with
  | nil => simp [sanitizerLoop]
  | cons f fs ih => simp [sanitizerLoop, ih]

theorem applyFilter_eq_spec (L : Lib) (ft t : GoString) :
    applyFilter L ft t = specTransform L ft t := by
  unfold applyFilter specTransform toLower normalize
  split_ifs <;> rfl

theorem sanitizerLoop_eq_foldl (L : Lib) (fs : List GoString) (t : GoString) :
    sanitizerLoop L fs t = fs.foldl (fun acc ft => specTransform L ft acc) t := by
  induction fs generalizing t with
  | nil => simp [sanitizerLoop]
  | cons f fs ih => simp [sanitizerLoop, ih, applyFilter_eq_spec]

theorem applyFilter_unrecognized (L : Lib) (ft t : GoString) (h : recognized ft = false) :
    applyFilter L ft t = t := by
  simp [recognized] at h
  simp [applyFilter, h]

theorem sanitizerLoop_filter (L : Lib) (fs : List GoString) (t : GoString) :
    sanitizerLoop L fs t = sanitizerLoop L (fs.filter recognized) t := by
  induction fs generalizing t with
  | nil => simp
  | cons f fs ih =>
    cases h : recognized f with
    | true => simp [List.filter_cons, h, sanitizerLoop, ih]
    | false =>
      simp only [List.filter_cons, h, sanitizerLoop, applyFilter_unrecognized L f t h]
      simpa using ih t

/-! ## `strconv.Atoi` -/

theorem atoiFast_cases (s : GoString) :
    atoiFast s = (0, some .syntaxErr) ∨ (atoiFast s).2 = none := by
  unfold atoiFast
  simp only
  split_ifs <;>
    first
    | exact Or.inl rfl
    | (split
       · exact Or.inl rfl
       · exact Or.inr rfl)

theorem atoiFast_syntax_zero (s : GoString) (h : (atoiFast s).2 = some .syntaxErr) :
    (atoiFast s).1 = 0 := by
  rcases atoiFast_cases s with h1 | h1
  · rw [h1]
  · rw [h1] at h
    cases h

theorem atoiFast_not_range (s : GoString) : (atoiFast s).2 ≠ some .rangeErr := by
  rcases atoiFast_cases s with h1 | h1
  · rw [h1]
    decide
  · rw [h1]
    simp

theorem parseInt_syntax_zero (intSize : Nat) (s : GoString)
    (h : (parseInt intSize s).2 = some .syntaxErr) : (parseInt intSize s).1 = 0 := by
  unfold parseInt at h ⊢
  simp only at h ⊢
  split_ifs at h ⊢ <;> simp_all

theorem parseInt_range (intSize : Nat) (s : GoString)
    (h : (parseInt intSize s).2 = some .rangeErr) :
    (parseInt intSize s).1 = (2 : Int) ^ (intSize - 1) - 1 ∨
      (parseInt intSize s).1 = -(2 : Int) ^ (intSize - 1) := by
  unfold parseInt at h ⊢
  simp only at h ⊢
  split_ifs at h ⊢ <;> simp_all

theorem atoi_syntax_zero (intSize : Nat) (s : GoString)
    (h : (atoi intSize s).2 = some .syntaxErr) : (atoi intSize s).1 = 0 := by
  unfold atoi at h ⊢
  split_ifs at h ⊢
  · exact atoiFast_syntax_zero s h
  · exact parseInt_syntax_zero intSize s h

theorem atoi_range (intSize : Nat) (s : GoString)
    (h : (atoi intSize s).2 = some .rangeErr) :
    (atoi intSize s).1 = (2 : Int) ^ (intSize - 1) - 1 ∨
      (atoi intSize s).1 = -(2 : Int) ^ (intSize - 1) := by
  unfold atoi at h ⊢
  split_ifs at h ⊢
  · exact absurd h (atoiFast_not_range s)
  · exact parseInt_range intSize s h


/-! ## `getInfoFromFile` -/

theorem readLoop_records (intSize : Nat) (rows : List (List GoString))
    (h : ∀ r ∈ rows, 2 ≤ r.length) (info : List Info) :
    readLoop intSize (rows.map .record) info =
      .ok (info ++ rows.map (fun r => Info.mk (atoi intSize (r.getD 0 [])).1 (r.getD 1 []))) := by
  induction rows generalizing info with
  | nil => simp [readLoop]
  | cons r rows ih =>
    have hr : 2 ≤ r.length := h r (List.mem_cons_self _ _)
    have hrest : ∀ x ∈ rows, 2 ≤ x.length := fun x hx => h x (List.mem_cons_of_mem _ hx)
    match r, hr with
    | c0 :: c1 :: more, _ =>
      simp [readLoop, ih hrest]

/-! ## The loops of `main` -/

theorem yTrueLoop_eq (results : List Info) (acc : List Int) :
    yTrueLoop results acc = acc ++ results.map Info.True := by
  induction results generalizing acc with
  | nil => simp [yTrueLoop]
  | cons r rest ih => simp [yTrueLoop, ih]

theorem yPredLoop_eq (L : Lib) (getScore : GoString → F64) (fs : List GoString)
    (results : List Info) (acc : List Int) :
    yPredLoop L getScore fs results acc =
      acc ++ results.map (fun r => predict (getScore (L.trimSpace (sanitizer L r.Text fs)))) := by
  induction results generalizing acc with
  | nil => simp [yPredLoop]
  | cons r rest ih => simp [yPredLoop, ih]

/-! ## Numerals, containment and the observation loop -/

theorem digitByte_toNat (d : Nat) (h : d < 10) : (digitByte d).toNat = 48 + d := by
  interval_cases d <;> rfl

theorem digitByte_ne_sign (d : Nat) (h : d < 10) : digitByte d ≠ 45 ∧ digitByte d ≠ 43 := by
  interval_cases d <;> decide

theorem foldl_digits_le (ds : List Nat) (n : Nat) :
    n ≤ ds.foldl (fun a d => a * 10 + d) n := by
  induction ds generalizing n with
  | nil => simp
  | cons d ds ih =>
    simp only [List.foldl_cons]
    have := ih (n * 10 + d)
    omega

theorem atoiFastLoop_digits (ds : List Nat) (h : ∀ d ∈ ds, d < 10) (n : Nat) :
    atoiFastLoop (ds.map digitByte) (n : Int) =
      some ((ds.foldl (fun a d => a * 10 + d) n : Nat) : Int) := by
  induction ds generalizing n with
  | nil => simp [atoiFastLoop]
  | cons d ds ih =>
    have hd : d < 10 := h d (List.mem_cons_self _ _)
    have hds : ∀ x ∈ ds, x < 10 := fun x hx => h x (List.mem_cons_of_mem _ hx)
    have hb := digitByte_toNat d hd
    have hch : ((digitByte d).toNat + 256 - 48) % 256 = d := by
      rw [hb]
      omega
    simp only [List.map_cons, atoiFastLoop, hch, List.foldl_cons]
    rw [if_neg (by omega)]
    have := ih hds (n * 10 + d)
    rw [← this]
    push_cast
    rfl

theorem parseUintLoop_digits (maxVal : Nat) (hmax : maxVal < 2 ^ 64) (ds : List Nat)
    (h : ∀ d ∈ ds, d < 10) (n : Nat)
    (hle : ds.foldl (fun a d => a * 10 + d) n ≤ maxVal) :
    parseUintLoop maxVal (ds.map digitByte) n =
      (ds.foldl (fun a d => a * 10 + d) n, none) := by
  induction ds generalizing n with
  | nil => simp [parseUintLoop]
  | cons d ds ih =>
    have hd : d < 10 := h d (List.mem_cons_self _ _)
    have hds : ∀ x ∈ ds, x < 10 := fun x hx => h x (List.mem_cons_of_mem _ hx)
    have hb := digitByte_toNat d hd
    simp only [List.foldl_cons] at hle
    have hmono := foldl_digits_le ds (n * 10 + d)
    have h64 : (2 : Nat) ^ 64 = 18446744073709551616 := by norm_num
    rw [h64] at hmax
    have hcut : (2 ^ 64 - 1) / 10 + 1 = 1844674407370955162 := by norm_num
    have hn10 : (n * 10) % 2 ^ 64 = n * 10 := by
      rw [h64]
      omega
    have hn1 : (n * 10 + d) % 2 ^ 64 = n * 10 + d := by
      rw [h64]
      omega
    simp only [List.map_cons, parseUintLoop, hb, List.foldl_cons, hcut, hn10, hn1]
    rw [if_pos (by omega)]
    simp only [Nat.add_sub_cancel_left]
    rw [if_neg (by omega), if_neg (by omega), if_neg (by omega)]
    rw [hn1]
    exact ih hds (n * 10 + d) hle


theorem atoiFast_numeral (sg : Sign) (ds : List Nat) (hne : ds ≠ [])
    (h : ∀ d ∈ ds, d < 10) : atoiFast (numeral sg ds) = (numeralValue sg ds, none) := by
  have hloop : atoiFastLoop (ds.map digitByte) 0 = some (digitsValue ds : Int) := by
    simpa [digitsValue] using atoiFastLoop_digits ds h 0
  have hlen : ¬ (ds.map digitByte).length < 1 := by
    cases ds with
    | nil => exact absurd rfl hne
    | cons d ds1 => simp
  cases sg with
  | bare =>
    obtain ⟨d, ds1, rfl⟩ := List.exists_cons_of_ne_nil hne
    have hd := digitByte_ne_sign d (h d (List.mem_cons_self _ _))
    have hsg : ¬ ((List.map digitByte (d :: ds1)).head? = some 45 ∨
        (List.map digitByte (d :: ds1)).head? = some 43) := by
      simp [hd.1, hd.2]
    have h45 : ¬ (List.map digitByte (d :: ds1)).head? = some 45 := fun hc => hsg (Or.inl hc)
    unfold atoiFast
    simp only [numeral, Sign.bytes, List.nil_append]
    rw [if_neg hsg, if_neg (fun hc => hsg hc.1), hloop]
    simp only [if_neg h45]
    rfl
  | plus =>
    have hsg : ((43 :: List.map digitByte ds).head? = some 45 ∨
        (43 :: List.map digitByte ds).head? = some 43) := Or.inr rfl
    have h45 : ¬ (43 :: List.map digitByte ds).head? = some 45 := by simp
    unfold atoiFast
    simp only [numeral, Sign.bytes, List.singleton_append]
    rw [if_pos hsg, if_neg (fun hc => hlen hc.2)]
    simp only [List.tail_cons, hloop, if_neg h45]
    rfl
  | minus =>
    have hsg : ((45 :: List.map digitByte ds).head? = some 45 ∨
        (45 :: List.map digitByte ds).head? = some 43) := Or.inl rfl
    have h45 : (45 :: List.map digitByte ds).head? = some 45 := rfl
    unfold atoiFast
    simp only [numeral, Sign.bytes, List.singleton_append]
    rw [if_pos hsg, if_neg (fun hc => hlen hc.2)]
    simp only [List.tail_cons, hloop, if_pos h45]
    rfl

theorem parseUint_digits (intSize : Nat) (hsz : intSize = 32 ∨ intSize = 64) (ds : List Nat)
    (hne : ds ≠ []) (h : ∀ d ∈ ds, d < 10) (hle : digitsValue ds ≤ 2 ^ (intSize - 1)) :
    parseUint intSize (ds.map digitByte) = (digitsValue ds, none) := by
  unfold parseUint
  rw [if_neg (by simpa using hne)]
  apply parseUintLoop_digits _ _ ds h 0
  · rcases hsz with rfl | rfl
    · norm_num at hle ⊢
      exact le_trans hle (by norm_num)
    · norm_num at hle ⊢
      exact le_trans hle (by norm_num)
  · exact Nat.mod_lt _ (by norm_num)


theorem parseInt_of_parts (intSize : Nat) (s0 body : GoString) (neg : Bool) (v : Nat)
    (hs0 : s0 ≠ []) (hneg : decide (s0.head? = some 45) = neg)
    (hbody : (if s0.head? = some 43 ∨ s0.head? = some 45 then s0.tail else s0) = body)
    (hu : parseUint intSize body = (v, none))
    (hpos : neg = false → v < 2 ^ (intSize - 1))
    (hmin : neg = true → v ≤ 2 ^ (intSize - 1)) :
    parseInt intSize s0 = (if neg then -(v : Int) else (v : Int), none) := by
  unfold parseInt
  rw [if_neg hs0]
  simp only [hbody, hu, hneg]
  rw [if_neg (by simp)]
  cases neg with
  | false =>
    have := hpos rfl
    rw [if_neg (by omega), if_neg (by simp)]
  | true =>
    have := hmin rfl
    rw [if_neg (by simp), if_neg (by omega)]

theorem parseInt_numeral (intSize : Nat) (hsz : intSize = 32 ∨ intSize = 64) (sg : Sign)
    (ds : List Nat) (h : IsIntNumeral intSize sg ds) :
    parseInt intSize (numeral sg ds) = (numeralValue sg ds, none) := by
  obtain ⟨hne, hd, hlo, hhi⟩ := h
  have hpow : ((2 : Nat) ^ (intSize - 1) : Int) = (2 : Int) ^ (intSize - 1) := by push_cast; rfl
  cases sg with
  | bare =>
    obtain ⟨d, ds1, rfl⟩ := List.exists_cons_of_ne_nil hne
    have hb := digitByte_ne_sign d (hd d (List.mem_cons_self _ _))
    simp only [numeralValue] at hlo hhi
    have hv : digitsValue (d :: ds1) < 2 ^ (intSize - 1) := by
      have : ((digitsValue (d :: ds1) : Nat) : Int) < ((2 : Nat) ^ (intSize - 1) : Int) := by
        rw [hpow]; exact hhi
      exact_mod_cast this
    have := parseInt_of_parts intSize (numeral .bare (d :: ds1)) ((d :: ds1).map digitByte)
      false (digitsValue (d :: ds1)) (by simp [numeral, Sign.bytes])
      (by simp [numeral, Sign.bytes, hb.1]) (by simp [numeral, Sign.bytes, hb.1, hb.2])
      (parseUint_digits intSize hsz _ hne hd (Nat.le_of_lt hv)) (fun _ => hv)
      (fun hc => by cases hc)
    simpa [numeralValue] using this
  | plus =>
    simp only [numeralValue] at hlo hhi
    have hv : digitsValue ds < 2 ^ (intSize - 1) := by
      have : ((digitsValue ds : Nat) : Int) < ((2 : Nat) ^ (intSize - 1) : Int) := by
        rw [hpow]; exact hhi
      exact_mod_cast this
    have := parseInt_of_parts intSize (numeral .plus ds) (ds.map digitByte)
      false (digitsValue ds) (by simp [numeral, Sign.bytes])
      (by simp [numeral, Sign.bytes]) (by simp [numeral, Sign.bytes])
      (parseUint_digits intSize hsz _ hne hd (Nat.le_of_lt hv)) (fun _ => hv)
      (fun hc => by cases hc)
    simpa [numeralValue] using this
  | minus =>
    simp only [numeralValue] at hlo hhi
    have hv : digitsValue ds ≤ 2 ^ (intSize - 1) := by
      have : ((digitsValue ds : Nat) : Int) ≤ ((2 : Nat) ^ (intSize - 1) : Int) := by
        rw [hpow]; omega
      exact_mod_cast this
    have := parseInt_of_parts intSize (numeral .minus ds) (ds.map digitByte)
      true (digitsValue ds) (by simp [numeral, Sign.bytes])
      (by simp [numeral, Sign.bytes]) (by simp [numeral, Sign.bytes])
      (parseUint_digits intSize hsz _ hne hd hv) (fun hc => by cases hc) (fun _ => hv)
    simpa [numeralValue] using this

theorem atoi_numeral (intSize : Nat) (hsz : intSize = 32 ∨ intSize = 64) (sg : Sign)
    (ds : List Nat) (h : IsIntNumeral intSize sg ds) :
    atoi intSize (numeral sg ds) = (numeralValue sg ds, none) := by
  unfold atoi
  split_ifs
  · exact atoiFast_numeral sg ds h.1 h.2.1
  · exact parseInt_numeral intSize hsz sg ds h


theorem hasPrefix_iff (s p : GoString) : hasPrefix s p = true ↔ ∃ t, s = p ++ t := by
  induction p generalizing s with
  | nil => cases s <;> simp [hasPrefix]
  | cons d p ih =>
    cases s with
    | nil => simp [hasPrefix]
    | cons c s =>
      simp only [hasPrefix, Bool.and_eq_true, beq_iff_eq, ih, List.cons_append, List.cons.injEq]
      constructor
      · rintro ⟨h1, t, h2⟩
        exact ⟨t, h1, h2⟩
      · rintro ⟨t, h1, h2⟩
        exact ⟨h1, t, h2⟩

theorem contains_iff (s sub : GoString) :
    contains s sub = true ↔ ∃ a b, s = a ++ sub ++ b := by
  induction s with
  | nil =>
    rw [contains]
    simp only [Bool.or_false, hasPrefix_iff]
    constructor
    · rintro ⟨t, h⟩
      exact ⟨[], t, by simpa using h⟩
    · rintro ⟨a, b, h⟩
      have h1 : a = [] := by
        cases a with
        | nil => rfl
        | cons x a => simp at h
      subst h1
      exact ⟨b, by simpa using h⟩
  | cons c t ih =>
    rw [contains_cons]
    simp only [Bool.or_eq_true, hasPrefix_iff, ih]
    constructor
    · rintro (⟨r, h⟩ | ⟨a, b, h⟩)
      · exact ⟨[], r, by simpa using h⟩
      · exact ⟨c :: a, b, by simp [h]⟩
    · rintro ⟨a, b, h⟩
      cases a with
      | nil => exact Or.inl ⟨b, by simpa using h⟩
      | cons x a =>
        simp only [List.cons_append, List.cons.injEq] at h
        exact Or.inr ⟨a, b, by simpa using h.2⟩

theorem length_replace_absent (s : GoString) (h : dot ∉ s) :
    (replace s).length = s.length := by
  rw [length_replace_cases, replaceFirst_absent dot space s h]
  have hc : ¬ contains s [dot, dot, dot] = true := by
    intro hc
    have h1 := count_of_contains_dots s hc
    have h2 : List.count dot s = 0 := List.count_eq_zero.mpr h
    omega
  rw [if_neg hc]

theorem length_replace_first (p t : GoString) (hp : dot ∉ p) :
    ((∃ a b, p ++ space :: t = a ++ [dot, dot, dot] ++ b) →
      (replace (p ++ dot :: t)).length + 2 = (p ++ dot :: t).length) ∧
    ((¬ ∃ a b, p ++ space :: t = a ++ [dot, dot, dot] ++ b) →
      (replace (p ++ dot :: t)).length = (p ++ dot :: t).length) := by
  have hlen := length_replace_cases (p ++ dot :: t)
  rw [replaceFirst_first dot space p t hp] at hlen
  have hl : (p ++ space :: t).length = (p ++ dot :: t).length := by simp
  constructor
  · intro hex
    have hc := (contains_iff _ _).mpr hex
    have h3 := contains_dots_length _ hc
    rw [if_pos hc] at hlen
    omega
  · intro hex
    have hc : ¬ contains (p ++ space :: t) [dot, dot, dot] = true :=
      fun hc => hex ((contains_iff _ _).mp hc)
    rw [if_neg hc] at hlen
    exact hlen


theorem predict_zero_or_one (c : F64) : predict c = 0 ∨ predict c = 1 := by
  unfold predict
  simp only
  split_ifs <;> simp

theorem observe_in_contract (mat : Matrix) (t p : Int) (ht : t = 0 ∨ t = 1)
    (hp : p = 0 ∨ p = 1) : observe mat t p = some (mat ++ [(t, p)]) := by
  unfold observe
  rw [if_pos ⟨ht, hp⟩]

theorem observeStep_in_range (yTrue yPred : List Int) (mat : Matrix) (i : Nat)
    (h1 : i < yTrue.length) (h2 : i < yPred.length) :
    observeStep yTrue yPred mat i ≠ .error .indexOutOfRange := by
  unfold observeStep
  rw [List.getElem?_eq_getElem h1, List.getElem?_eq_getElem h2]
  simp only
  split <;> simp

theorem observeStep_in_contract (yTrue yPred : List Int) (mat : Matrix) (i : Nat)
    (h1 : i < yTrue.length) (h2 : i < yPred.length)
    (ht : yTrue[i] = 0 ∨ yTrue[i] = 1) (hp : yPred[i] = 0 ∨ yPred[i] = 1) :
    observeStep yTrue yPred mat i = .ok (mat ++ [(yTrue[i], yPred[i])]) := by
  unfold observeStep
  rw [List.getElem?_eq_getElem h1, List.getElem?_eq_getElem h2]
  simp only
  rw [observe_in_contract mat _ _ ht hp]

theorem observe_upto_no_index_crash (yTrue yPred : List Int)
    (hl : yTrue.length = yPred.length) (k : Nat) (hk : k ≤ yTrue.length) :
    (List.range k).foldlM (observeStep yTrue yPred) [] ≠ .error .indexOutOfRange := by
  induction k with
  | zero => simp [pure, Except.pure]
  | succ k ih =>
    have h1 : k < yTrue.length := by omega
    have h2 : k < yPred.length := by omega
    rw [List.range_succ, List.foldlM_append]
    have hprev := ih (by omega)
    cases hr : (List.range k).foldlM (observeStep yTrue yPred) [] with
    | error e =>
      rw [hr] at hprev
      simp only [bind, Except.bind]
      exact hprev
    | ok m =>
      simp only [bind, Except.bind, List.foldlM_cons, List.foldlM_nil]
      have hs := observeStep_in_range yTrue yPred m k h1 h2
      cases hstep : observeStep yTrue yPred m k with
      | error e =>
        rw [hstep] at hs
        exact hs
      | ok m2 => simp [pure, Except.pure]

theorem observe_upto (yTrue yPred : List Int) (hl : yTrue.length = yPred.length)
    (hT : ∀ t ∈ yTrue, t = 0 ∨ t = 1) (hP : ∀ p ∈ yPred, p = 0 ∨ p = 1)
    (k : Nat) (hk : k ≤ yTrue.length) :
    (List.range k).foldlM (observeStep yTrue yPred) [] =
      .ok (List.zip (yTrue.take k) (yPred.take k)) := by
  induction k with
  | zero => simp [pure, Except.pure]
  | succ k ih =>
    have h1 : k < yTrue.length := by omega
    have h2 : k < yPred.length := by omega
    rw [List.range_succ, List.foldlM_append, ih (by omega)]
    simp only [bind, Except.bind, List.foldlM_cons, List.foldlM_nil]
    rw [observeStep_in_contract yTrue yPred _ k h1 h2 (hT _ (List.getElem_mem _))
      (hP _ (List.getElem_mem _))]
    simp only [pure, Except.pure]
    rw [List.take_succ, List.take_succ, List.getElem?_eq_getElem h1,
      List.getElem?_eq_getElem h2]
    simp only [Option.toList_some]
    rw [List.zip_append (by simp [Nat.min_eq_left, hk, hl ▸ hk]; omega)]
    simp

theorem observeLoop_eq (yTrue yPred : List Int) (hl : yTrue.length = yPred.length)
    (hT : ∀ t ∈ yTrue, t = 0 ∨ t = 1) (hP : ∀ p ∈ yPred, p = 0 ∨ p = 1) :
    observeLoop yTrue yPred = .ok (List.zip yTrue yPred) := by
  unfold observeLoop
  rw [observe_upto yTrue yPred hl hT hP yTrue.length (Nat.le_refl _), List.take_length, hl,
    List.take_length]

theorem observeLoop_no_index_crash (yTrue yPred : List Int)
    (hl : yTrue.length = yPred.length) :
    observeLoop yTrue yPred ≠ .error .indexOutOfRange :=
  observe_upto_no_index_crash yTrue yPred hl yTrue.length (Nat.le_refl _)

/-! ## The claims -/

/-- C1: for every compound score the predicted label of the scoring loop is 1 when
the score is at least 0.05 and 0 otherwise, so it is always 0 or 1; the scores
0.05, -0.05 and 0.0 give 1, 0 and 0. -/
theorem predict_threshold (c : F64) :
    predict c = (if F64.ge c c005 = true then 1 else 0) ∧
    (predict c = 0 ∨ predict c = 1) ∧
    predict c005 = 1 ∧ predict cNeg005 = 0 ∧ predict (.finite 0) = 0 := by
  refine ⟨?_, ?_, ?_, ?_, ?_⟩
  · unfold predict
    simp only
    split_ifs <;> rfl
  · unfold predict
    simp only
    split_ifs <;> simp
  · simp [predict, c005, F64.ge]
  · simp [predict, c005, cNeg005, F64.ge, F64.le]
  · simp [predict, c005, cNeg005, F64.ge, F64.le]

/-- C2: when a string has exactly two periods, at positions `i < j`, `replace` puts
a space at `i`, leaves the period at `j`, keeps the length, and its output has
exactly one period; `replace "a.b.c"` and `sanitizer "a.b.c" ["replace"]` are
`"a b.c"`. -/
theorem replace_two_periods (L : Lib) (s : GoString) (i j : Nat) (hij : i < j)
    (hi : s[i]? = some dot) (hj : s[j]? = some dot) (hc : s.count dot = 2) :
    (replace s)[i]? = some space ∧ (replace s)[j]? = some dot ∧
    (replace s).count dot = 1 ∧ (replace s).length = s.length ∧
    replace (ascii "a.b.c") = ascii "a b.c" ∧
    sanitizer L (ascii "a.b.c") [ascii "replace"] = ascii "a b.c" := by
  obtain ⟨p, q, r, hs, hpl, hql, hp, hq, hr⟩ := two_periods_split s i j hij hi hj hc
  have h := replace_twoMarks p q r hp hq hr
  rw [← hs, hql, hpl] at h
  obtain ⟨h1, h2, h3, h4⟩ := h
  refine ⟨h1, h2, h3, ?_, by decide, ?_⟩
  · rw [h4, hs]
    simp
    omega
  · have : replace (ascii "a.b.c") = ascii "a b.c" := by decide
    rw [sanitizer_eq_loop]
    unfold sanitizerLoop sanitizerLoop applyFilter
    rw [if_neg (by decide), if_neg (by decide), if_pos rfl]
    exact this

theorem replace_two_periods_witness :
    (1 < 3 ∧ (ascii "a.b.c")[1]? = some dot ∧ (ascii "a.b.c")[3]? = some dot ∧
      (ascii "a.b.c").count dot = 2) ∧
    ((replace (ascii "a.b.c"))[1]? = some space ∧ (replace (ascii "a.b.c"))[3]? = some dot ∧
      (replace (ascii "a.b.c")).count dot = 1 ∧
      (replace (ascii "a.b.c")).length = (ascii "a.b.c").length ∧
      replace (ascii "a.b.c") = ascii "a b.c" ∧
      sanitizer (Lib.mk id id id) (ascii "a.b.c") [ascii "replace"] = ascii "a b.c") :=
  ⟨by decide,
    replace_two_periods (Lib.mk id id id) (ascii "a.b.c") 1 3 (by decide) (by decide)
      (by decide) (by decide)⟩

/-- C3: on the string `"..."` the code gives `" .."` and not `" "`: the period of
the table is replaced first, so the ellipsis of the table finds nothing; the same
happens inside `"a...b"`. -/
theorem replace_ellipsis_eval :
    replace (ascii "...") = ascii " .." ∧ replace (ascii "...") ≠ ascii " " ∧
    replace (ascii "a...b") = ascii "a ..b" ∧ replace (ascii "a...b") ≠ ascii "a b" := by
  decide

/-- C4: `sanitizer` applies the filters in the order given, each on the output of
the one before: a concatenated filter list is the composition, and `sanitizer` is
the left fold of the per-name transform. -/
theorem sanitizer_order (L : Lib) (t : GoString) (fs gs : List GoString) :
    sanitizer L t (fs ++ gs) = sanitizer L (sanitizer L t fs) gs ∧
    sanitizer L t fs = fs.foldl (fun acc ft => specTransform L ft acc) t := by
  refine ⟨?_, ?_⟩
  · rw [sanitizer_eq_loop, sanitizer_eq_loop, sanitizer_eq_loop, sanitizerLoop_append]
  · rw [sanitizer_eq_loop, sanitizerLoop_eq_foldl]

/-- C5: filter names other than `lowercase`, `normalize` and `replace` are ignored:
`sanitizer` gives the same text with them removed from the list, and the input
itself when no name of the list is recognized. -/
theorem sanitizer_ignores_unrecognized (L : Lib) (t : GoString) (fs : List GoString) :
    sanitizer L t fs = sanitizer L t (fs.filter recognized) ∧
    ((∀ ft ∈ fs, recognized ft = false) → sanitizer L t fs = t) := by
  have h1 : sanitizer L t fs = sanitizer L t (fs.filter recognized) := by
    rw [sanitizer_eq_loop, sanitizer_eq_loop]
    exact sanitizerLoop_filter L fs t
  refine ⟨h1, fun h => ?_⟩
  have h2 : fs.filter recognized = [] := by
    rw [List.filter_eq_nil_iff]
    intro a ha
    simp [h a ha]
  rw [h1, h2]
  simp [sanitizer]

theorem sanitizer_ignores_unrecognized_witness :
    (∀ ft ∈ [ascii "upper", ascii "Replace"], recognized ft = false) ∧
    sanitizer (Lib.mk id id id) (ascii "A.b") [ascii "upper", ascii "Replace"] = ascii "A.b" :=
  ⟨by decide,
    (sanitizer_ignores_unrecognized (Lib.mk id id id) (ascii "A.b")
      [ascii "upper", ascii "Replace"]).2 (by decide)⟩

/-- C6: with an empty filter list `sanitizer` returns its input, so the string
handed to the scorer is `TrimSpace` of the text of the record. -/
theorem sanitizer_empty (L : Lib) (getScore : GoString → F64) (t : GoString)
    (results : List Info) :
    sanitizer L t [] = t ∧ scorerInput L [] t = L.trimSpace t ∧
    yPredLoop L getScore [] results [] =
      results.map (fun r => predict (getScore (L.trimSpace r.Text))) := by
  refine ⟨by simp [sanitizer], by simp [scorerInput, sanitizer], ?_⟩
  rw [yPredLoop_eq]
  simp [sanitizer]


/-- C7, as stated, fails: on a 64-bit platform the digit string
`9223372036854775808` is out of the range of `int`, `Atoi` reports a range error
and still returns `9223372036854775807`, which becomes the label. -/
theorem atoi_range_label_counterexample :
    (atoi 64 (ascii "9223372036854775808")).2 = some NumError.rangeErr ∧
    getInfoFromFile 64 (some [ReadResult.record [ascii "9223372036854775808", ascii "x"]]) =
      LoadOutcome.ok [Info.mk 9223372036854775807 (ascii "x")] ∧
    (Info.mk 9223372036854775807 (ascii "x")).True ≠ 0 := by
  decide

/-- C7, amended: when every row has at least two columns `getInfoFromFile` does
not fail and gives one record per row; the label of a row whose column 0 is a
syntax error for `Atoi` is 0, and the label of a row whose column 0 is out of the
range of `int` is the largest or the smallest `int`. -/
theorem atoi_failure_label (intSize : Nat) (rows : List (List GoString))
    (h : ∀ r ∈ rows, 2 ≤ r.length) :
    ∃ info : List Info,
      getInfoFromFile intSize (some (rows.map .record)) = .ok info ∧
      info.length = rows.length ∧
      ∀ (i : Nat) (r : List GoString) (c0 : GoString) (x : Info),
        rows[i]? = some r → r[0]? = some c0 → info[i]? = some x →
          ((atoi intSize c0).2 = some .syntaxErr → x.True = 0) ∧
          ((atoi intSize c0).2 = some .rangeErr →
            x.True = (2 : Int) ^ (intSize - 1) - 1 ∨ x.True = -(2 : Int) ^ (intSize - 1)) := by
  refine ⟨rows.map (fun r => Info.mk (atoi intSize (r.getD 0 [])).1 (r.getD 1 [])),
    ?_, ?_, ?_⟩
  · unfold getInfoFromFile
    simp only
    rw [readLoop_records intSize rows h []]
    simp
  · simp
  · intro i r c0 x hr hc hx
    simp only [List.nil_append, List.getElem?_map, hr, Option.map_some', Option.some.injEq]
      at hx
    have hd : r.getD 0 [] = c0 := by
      rw [List.getD_eq_getElem?_getD, hc]
      rfl
    subst hx
    simp only [hd]
    exact ⟨atoi_syntax_zero intSize c0, atoi_range intSize c0⟩

theorem atoi_failure_label_witness :
    (∀ r ∈ [[ascii "abc", ascii "x"], [ascii "9223372036854775808", ascii "y"]],
      2 ≤ r.length) ∧
    ∃ info : List Info,
      getInfoFromFile 64 (some (List.map ReadResult.record
        [[ascii "abc", ascii "x"], [ascii "9223372036854775808", ascii "y"]])) = .ok info ∧
      info.length =
        [[ascii "abc", ascii "x"], [ascii "9223372036854775808", ascii "y"]].length ∧
      ∀ (i : Nat) (r : List GoString) (c0 : GoString) (x : Info),
        [[ascii "abc", ascii "x"], [ascii "9223372036854775808", ascii "y"]][i]? = some r →
        r[0]? = some c0 → info[i]? = some x →
          ((atoi 64 c0).2 = some .syntaxErr → x.True = 0) ∧
          ((atoi 64 c0).2 = some .rangeErr →
            x.True = (2 : Int) ^ (64 - 1) - 1 ∨ x.True = -(2 : Int) ^ (64 - 1)) :=
  ⟨by decide,
    atoi_failure_label 64 [[ascii "abc", ascii "x"], [ascii "9223372036854775808", ascii "y"]]
      (by decide)⟩

/-- C8: when every row has at least two columns the loop of `getInfoFromFile`
never indexes out of range and returns one `Info` per row, in file order, whose
`Text` is column 1 and whose `True` is what `Atoi` gives for column 0; when
column 0 is a decimal numeral of an integer that fits `int`, `True` is that
integer. -/
theorem getInfoFromFile_rows (intSize : Nat) (hsz : intSize = 32 ∨ intSize = 64)
    (rows : List (List GoString)) (h : ∀ r ∈ rows, 2 ≤ r.length) :
    getInfoFromFile intSize (some (rows.map .record)) =
      .ok (rows.map (fun r => Info.mk (atoi intSize (r.getD 0 [])).1 (r.getD 1 []))) ∧
    (rows.map (fun r => Info.mk (atoi intSize (r.getD 0 [])).1 (r.getD 1 []))).length =
      rows.length ∧
    (∀ (i : Nat) (r : List GoString) (sg : Sign) (ds : List Nat),
      rows[i]? = some r → r[0]? = some (numeral sg ds) → IsIntNumeral intSize sg ds →
      ∃ c1 more, r = numeral sg ds :: c1 :: more ∧
        (rows.map (fun r => Info.mk (atoi intSize (r.getD 0 [])).1 (r.getD 1 [])))[i]? =
          some (Info.mk (numeralValue sg ds) c1)) := by
  refine ⟨?_, by simp, ?_⟩
  · unfold getInfoFromFile
    simp only
    rw [readLoop_records intSize rows h []]
    simp
  · intro i r sg ds hr h0 hnum
    have hmem : r ∈ rows := List.mem_iff_getElem?.mpr ⟨i, hr⟩
    have hlen := h r hmem
    match r, hlen, h0 with
    | c0 :: c1 :: more, _, h0 =>
      simp only [List.getElem?_cons_zero, Option.some.injEq] at h0
      subst h0
      refine ⟨c1, more, rfl, ?_⟩
      simp only [List.getElem?_map, hr, Option.map_some', List.getD_cons_zero,
        List.getD_cons_succ, atoi_numeral intSize hsz sg ds hnum]

theorem getInfoFromFile_rows_witness :
    ((64 = 32 ∨ 64 = 64) ∧
      (∀ r ∈ [[ascii "1", ascii "good"], [ascii "-12", ascii "bad"]], 2 ≤ r.length) ∧
      [[ascii "1", ascii "good"], [ascii "-12", ascii "bad"]][1]? =
        some [ascii "-12", ascii "bad"] ∧
      [ascii "-12", ascii "bad"][0]? = some (numeral Sign.minus [1, 2]) ∧
      IsIntNumeral 64 Sign.minus [1, 2]) ∧
    ∃ c1 more, [ascii "-12", ascii "bad"] = numeral Sign.minus [1, 2] :: c1 :: more ∧
      (List.map (fun r => Info.mk (atoi 64 (r.getD 0 [])).1 (r.getD 1 []))
        [[ascii "1", ascii "good"], [ascii "-12", ascii "bad"]])[1]? =
          some (Info.mk (numeralValue Sign.minus [1, 2]) c1) :=
  ⟨⟨Or.inr rfl, by decide, by decide, by decide, ⟨by decide, by decide, by decide, by decide⟩⟩,
    (getInfoFromFile_rows 64 (Or.inr rfl) [[ascii "1", ascii "good"], [ascii "-12", ascii "bad"]]
      (by decide)).2.2 1 [ascii "-12", ascii "bad"] Sign.minus [1, 2] (by decide) (by decide)
      ⟨by decide, by decide, by decide, by decide⟩⟩

/-- C9, as stated, fails: the record with label `9223372036854775807`, which
`getInfoFromFile` returns for column 0 `9223372036854775808`, is outside the labels
`mat.Observe` accepts, so the first call does not return and no pair after it is
fed to the matrix. -/
theorem observe_large_label_counterexample :
    getInfoFromFile 64 (some [ReadResult.record [ascii "9223372036854775808", ascii "x"],
        ReadResult.record [ascii "1", ascii "y"]]) =
      LoadOutcome.ok [Info.mk 9223372036854775807 (ascii "x"), Info.mk 1 (ascii "y")] ∧
    (mainScore (Lib.mk id id id) (fun _ => F64.finite 0) []
      [Info.mk 9223372036854775807 (ascii "x"), Info.mk 1 (ascii "y")]).observed =
        Except.error Crash.observeFailed := by
  exact ⟨by decide, rfl⟩

/-- C9, amended: for every list of records and every filter list, `yTrue` and
`yPred` have one entry per record, in record order, `yPred[i]` is in range for
every index of `yTrue`, and the observation loop never stops on an index out of
range; when every true label is 0 or 1 the confusion matrix is fed exactly the
pairs `(yTrue[i], yPred[i])`, one per record, in order. -/
theorem main_feeds_pairs (L : Lib) (getScore : GoString → F64) (fs : List GoString)
    (results : List Info) :
    (mainScore L getScore fs results).yTrue = results.map Info.True ∧
    (mainScore L getScore fs results).yPred =
      results.map (fun r => predict (getScore (L.trimSpace (sanitizer L r.Text fs)))) ∧
    (mainScore L getScore fs results).yTrue.length = results.length ∧
    (mainScore L getScore fs results).yPred.length = results.length ∧
    (∀ i : Fin (mainScore L getScore fs results).yTrue.length,
      ((mainScore L getScore fs results).yPred[i.val]?).isSome = true) ∧
    (mainScore L getScore fs results).observed ≠ Except.error Crash.indexOutOfRange ∧
    ((∀ r ∈ results, r.True = 0 ∨ r.True = 1) →
      (mainScore L getScore fs results).observed =
        Except.ok (List.zip (mainScore L getScore fs results).yTrue
          (mainScore L getScore fs results).yPred) ∧
      (List.zip (mainScore L getScore fs results).yTrue
        (mainScore L getScore fs results).yPred).length = results.length) := by
  have hT : (mainScore L getScore fs results).yTrue = results.map Info.True := by
    simp [mainScore, yTrueLoop_eq]
  have hP : (mainScore L getScore fs results).yPred =
      results.map (fun r => predict (getScore (L.trimSpace (sanitizer L r.Text fs)))) := by
    simp [mainScore, yPredLoop_eq]
  have hO : (mainScore L getScore fs results).observed =
      observeLoop (mainScore L getScore fs results).yTrue
        (mainScore L getScore fs results).yPred := rfl
  have hl : (mainScore L getScore fs results).yTrue.length =
      (mainScore L getScore fs results).yPred.length := by simp [hT, hP]
  refine ⟨hT, hP, by simp [hT], by simp [hP], ?_, ?_, ?_⟩
  · intro i
    have hlen : (mainScore L getScore fs results).yTrue.length = results.length := by
      simp [hT]
    have hi : i.val < results.length := Nat.lt_of_lt_of_eq i.isLt hlen
    rw [hP]
    simp [hi]
  · rw [hO]
    exact observeLoop_no_index_crash _ _ hl
  · intro hlab
    refine ⟨?_, by simp [hT, hP]⟩
    rw [hO]
    apply observeLoop_eq _ _ hl
    · intro t ht
      rw [hT] at ht
      obtain ⟨r, hr, rfl⟩ := List.mem_map.mp ht
      exact hlab r hr
    · intro p hp
      rw [hP] at hp
      obtain ⟨r, _, rfl⟩ := List.mem_map.mp hp
      exact predict_zero_or_one _

theorem main_feeds_pairs_witness :
    (∀ r ∈ [Info.mk 1 (ascii "good"), Info.mk 0 (ascii "bad")], r.True = 0 ∨ r.True = 1) ∧
    ((mainScore (Lib.mk id id id) (fun _ => F64.finite 0) [ascii "replace"]
        [Info.mk 1 (ascii "good"), Info.mk 0 (ascii "bad")]).observed =
      Except.ok (List.zip
        (mainScore (Lib.mk id id id) (fun _ => F64.finite 0) [ascii "replace"]
          [Info.mk 1 (ascii "good"), Info.mk 0 (ascii "bad")]).yTrue
        (mainScore (Lib.mk id id id) (fun _ => F64.finite 0) [ascii "replace"]
          [Info.mk 1 (ascii "good"), Info.mk 0 (ascii "bad")]).yPred) ∧
    (List.zip
        (mainScore (Lib.mk id id id) (fun _ => F64.finite 0) [ascii "replace"]
          [Info.mk 1 (ascii "good"), Info.mk 0 (ascii "bad")]).yTrue
        (mainScore (Lib.mk id id id) (fun _ => F64.finite 0) [ascii "replace"]
          [Info.mk 1 (ascii "good"), Info.mk 0 (ascii "bad")]).yPred).length =
      [Info.mk 1 (ascii "good"), Info.mk 0 (ascii "bad")].length) :=
  ⟨by decide,
    (main_feeds_pairs (Lib.mk id id id) (fun _ => F64.finite 0) [ascii "replace"]
      [Info.mk 1 (ascii "good"), Info.mk 0 (ascii "bad")]).2.2.2.2.2.2 (by decide)⟩

/-- C10: the length of `replace s` is the length of `s`, or that length less 2, and
it never grows. It is unchanged when `s` has no period; when the first period of
`s` is turned into a space, it is shorter by 2 exactly when the resulting string
still has three periods in a row, as in `"...."` and `"a....b"`, and not in
`"..."`. -/
theorem replace_length (s : GoString) :
    ((replace s).length = s.length ∨ (replace s).length + 2 = s.length) ∧
    (replace s).length ≤ s.length ∧
    (dot ∉ s → (replace s).length = s.length) ∧
    (∀ p t : GoString, dot ∉ p → s = p ++ dot :: t →
      ((∃ a b, p ++ space :: t = a ++ ascii "..." ++ b) →
        (replace s).length + 2 = s.length) ∧
      ((¬ ∃ a b, p ++ space :: t = a ++ ascii "..." ++ b) →
        (replace s).length = s.length)) ∧
    replace (ascii "....") = ascii "  " ∧
    (replace (ascii "a....b")).length + 2 = (ascii "a....b").length ∧
    (replace (ascii "...")).length = (ascii "...").length := by
  have h := length_replace_cases s
  have e3 : ascii "..." = [dot, dot, dot] := rfl
  refine ⟨?_, ?_, length_replace_absent s, ?_, by decide, by decide, by decide⟩
  · by_cases hc : contains (replaceFirst s [dot] [space]) [dot, dot, dot] = true
    · have hl := contains_dots_length _ hc
      rw [replaceFirst_single_length] at hl
      rw [if_pos hc] at h
      omega
    · rw [if_neg hc] at h
      omega
  · by_cases hc : contains (replaceFirst s [dot] [space]) [dot, dot, dot] = true
    · rw [if_pos hc] at h
      omega
    · rw [if_neg hc] at h
      omega
  · intro p t hp hs
    subst hs
    rw [e3]
    exact length_replace_first p t hp

theorem replace_length_witness :
    (dot ∉ ascii "a" ∧ ascii "a....b" = ascii "a" ++ dot :: ascii "...b" ∧
      ∃ a b, ascii "a" ++ space :: ascii "...b" = a ++ ascii "..." ++ b) ∧
    (replace (ascii "a....b")).length + 2 = (ascii "a....b").length :=
  ⟨⟨by decide, by decide, ⟨ascii "a ", ascii "b", by decide⟩⟩,
    ((replace_length (ascii "a....b")).2.2.2.1 (ascii "a") (ascii "...b") (by decide)
      (by decide)).1 ⟨ascii "a ", ascii "b", by decide⟩⟩

end Sentiment
